import Mathlib

/-!
Shallow embedding of `buildscripts/generate_resmoke_suites.py`.

Durations (Python floats holding seconds) are modelled as rationals `ℚ`;
run counts as `Nat`.  Python `dict`s used as insertion-ordered mappings are
modelled as association lists that update in place and append fresh keys at
the end, exactly matching CPython's insertion-order semantics.
-/

namespace GenerateResmokeSuites

/-- `class Suite` from the source: an ordered list of test names plus the
running total runtime accumulated by `add_test`. -/
structure Suite where
  tests : List String
  total_runtime : ℚ
deriving Repr, DecidableEq

/-- `Suite.__init__`: empty test list, total runtime 0. -/
def Suite.empty : Suite := ⟨[], 0⟩

/-- `Suite.add_test`: append the test and add its runtime to the total. -/
def Suite.add_test (s : Suite) (test_file : String) (runtime : ℚ) : Suite :=
  ⟨s.tests ++ [test_file], s.total_runtime + runtime⟩

/-- `Suite.get_runtime`. -/
def Suite.get_runtime (s : Suite) : ℚ := s.total_runtime

/-- `Suite.get_test_count`. -/
def Suite.get_test_count (s : Suite) : Nat := s.tests.length

/-- In-place update of the element at index `i` (Python `suites[i].add_test(...)`
mutates the list element in place).  Out-of-range indices leave the list
unchanged; all reachable call sites stay in range. -/
def listModify {α : Type} : List α → Nat → (α → α) → List α
  | [], _, _ => []
  | a :: as, 0, f => f a :: as
  | a :: as, n + 1, f => a :: listModify as n f

/-- Loop body of `divide_remaining_tests_among_suites`: walk the remaining
(test, runtime) pairs, adding each to `suites[suite_idx]` and stepping
`suite_idx` cyclically (`suite_idx += 1; if suite_idx >= len(suites): suite_idx = 0`). -/
def divide_remaining_go : List (String × ℚ) → List Suite → Nat → List Suite
  | [], suites, _ => suites
  | (test_file, runtime) :: rest, suites, suite_idx =>
      let suites' := listModify suites suite_idx (fun s => s.add_test test_file runtime)
      let suite_idx' := if suite_idx + 1 ≥ suites.length then 0 else suite_idx + 1
      divide_remaining_go rest suites' suite_idx'

/-- `divide_remaining_tests_among_suites`: round-robin distribution of the
remaining tests over the existing suites, starting at index 0. -/
def divide_remaining_tests_among_suites (remaining_tests_runtimes : List (String × ℚ))
    (suites : List Suite) : List Suite :=
  divide_remaining_go remaining_tests_runtimes suites 0

/-- Python truthiness of the optional `max_suites` argument
(`if max_suites and ...`): `None` and `0` are falsy. -/
def natTruthy : Option Nat → Bool
  | none => false
  | some n => decide (n ≠ 0)

/-- The `for idx, (test_file, runtime) in enumerate(tests_runtimes)` loop of
`divide_tests_into_suites`.  Returns the closed suites, the current suite, and
the unconsumed suffix of the input (`tests_runtimes[last_test_processed:]`,
empty unless the `max_suites` early `break` fired; the element that triggered
the break was not added and heads the suffix). -/
def dtis_loop (max_time_seconds : ℚ) (max_suites : Option Nat) :
    List (String × ℚ) → List Suite → Suite → List Suite × Suite × List (String × ℚ)
  | [], suites, current_suite => (suites, current_suite, [])
  | (test_file, runtime) :: rest, suites, current_suite =>
      if current_suite.get_runtime + runtime > max_time_seconds then
        if current_suite.get_test_count > 0 then
          if natTruthy max_suites ∧ suites.length + 1 ≥ max_suites.getD 0 then
            (suites ++ [current_suite], Suite.empty, (test_file, runtime) :: rest)
          else
            dtis_loop max_time_seconds max_suites rest (suites ++ [current_suite])
              (Suite.empty.add_test test_file runtime)
        else
          dtis_loop max_time_seconds max_suites rest suites
            (current_suite.add_test test_file runtime)
      else
        dtis_loop max_time_seconds max_suites rest suites
          (current_suite.add_test test_file runtime)

/-- Post-loop code of `divide_tests_into_suites`: append the current suite if
it is non-empty. -/
def closeBins (suites : List Suite) (current_suite : Suite) : List Suite :=
  if current_suite.get_test_count > 0 then suites ++ [current_suite] else suites

/-- The bins produced by the greedy pass of `divide_tests_into_suites`,
before any round-robin top-up of leftovers. -/
def dtis_phase1 (tests_runtimes : List (String × ℚ)) (max_time_seconds : ℚ)
    (max_suites : Option Nat) : List Suite :=
  match dtis_loop max_time_seconds max_suites tests_runtimes [] Suite.empty with
  | (suites, current_suite, _) => closeBins suites current_suite

/-- `divide_tests_into_suites`. -/
def divide_tests_into_suites (tests_runtimes : List (String × ℚ)) (max_time_seconds : ℚ)
    (max_suites : Option Nat) : List Suite :=
  match dtis_loop max_time_seconds max_suites tests_runtimes [] Suite.empty with
  | (suites, current_suite, remaining) =>
      let bins := closeBins suites current_suite
      if natTruthy max_suites ∧ remaining ≠ [] then
        divide_remaining_tests_among_suites remaining bins
      else
        bins

/-- All tests of a list of suites, in suite-then-position order. -/
def allTests (suites : List Suite) : List String :=
  (suites.map Suite.tests).flatten

/-- Specification-side description of a round-robin distribution over `n` bins:
the elements of `l` whose offset `i` (counting from `start`) satisfies
`i % n = j`, i.e. the elements that land in bin `j`. -/
def roundRobinSlice {α : Type} : List α → Nat → Nat → Nat → List α
  | [], _, _, _ => []
  | x :: rest, n, i, j =>
      (if i % n = j then [x] else []) ++ roundRobinSlice rest n (i + 1) j

/-! ### Modelled helpers from `buildscripts/util/testname.py`

The `testname` module is not part of the sources provided; these definitions
are modelled from the spec's description of the naming convention. -/

/-- Split a character list on a separator character (groups between
occurrences of `c`, in order). -/
def splitOnChar (c : Char) : List Char → List (List Char)
  | [] => [[]]
  | x :: xs =>
      if x = c then [] :: splitOnChar c xs
      else
        match splitOnChar c xs with
        | [] => [[x]]
        | g :: gs => (x :: g) :: gs

/-- Modelled from the spec: `testname.normalize_test_file` is missing from the
sources; the spec treats normalization as an upstream/external concern the
core merely assumes ("the core assumes normalization happened upstream"), so
it is modelled as the identity on already-normalized identifiers. -/
def normalize_test_file (test_file : String) : String := test_file

/-- Modelled from the spec: `testname.is_resmoke_hook` is missing from the
sources; per the spec a hook identifier "matches a reserved hook-name
pattern": it is "the test name plus a suffix", here a `:`-separated suffix,
so a hook is an identifier containing the separator. -/
def is_resmoke_hook (test_file : String) : Bool :=
  test_file.data.contains ':'

/-- Modelled from the spec: `testname.split_test_hook_name` is missing from
the sources; per the spec it splits a hook name into
(owning-test-name, hook-kind) at the separator. -/
def split_test_hook_name (hook_name : String) : String × String :=
  let parts := splitOnChar ':' hook_name.data
  (String.mk (parts.getD 0 []), String.mk (parts.getD 1 []))

/-- Modelled from the spec: `testname.get_short_name_from_test_file` is
missing from the sources; per the spec the short name is the "identifier
minus any directory/suite decoration": the final path component with its
extension removed. -/
def get_short_name_from_test_file (test_file : String) : String :=
  let base := (splitOnChar '/' test_file.data).getLastD []
  let parts := splitOnChar '.' base
  if parts.length ≤ 1 then String.mk base
  else String.mk (List.intercalate ['.'] parts.dropLast)

/-! ### `class TestStats` -/

/-- The `{"num_run": X, "duration": Y}` payload stored per test. -/
structure RuntimeInfo where
  duration : ℚ
  num_run : Nat
deriving Repr, DecidableEq

/-- A `defaultdict(dict)` used as an insertion-ordered mapping: an association
list; an absent key stands for the default empty (falsy) inner dict. -/
abbrev RuntimeDict := List (String × RuntimeInfo)

/-- Look up the payload stored for `test_name` (`none` models the falsy empty
dict a `defaultdict` yields for an absent key). -/
def lookupRuntime : RuntimeDict → String → Option RuntimeInfo
  | [], _ => none
  | (k, v) :: rest, test_name => if k = test_name then some v else lookupRuntime rest test_name

/-- Replace the payload of the first entry with key `test_name`, in place
(CPython dict assignment keeps the key's insertion position). -/
def updateEntry : RuntimeDict → String → RuntimeInfo → RuntimeDict
  | [], _, _ => []
  | (k, v) :: rest, test_name, newv =>
      if k = test_name then (k, newv) :: rest else (k, v) :: updateEntry rest test_name newv

/-- `TestStats._average`: weighted average of two values with associated
counts. -/
def _average (value_a : ℚ) (num_a : Nat) (value_b : ℚ) (num_b : Nat) : ℚ :=
  (value_a * (num_a : ℚ) + value_b * (num_b : ℚ)) / ((num_a : ℚ) + (num_b : ℚ))

/-- `TestStats._add_runtime_info`: first sample for a key stores
(duration, num_run); a later sample merges by weighted average and sums the
counts.  A fresh key is appended at the end (dict insertion order). -/
def _add_runtime_info (runtime_dict : RuntimeDict) (test_name : String)
    (duration : ℚ) (num_run : Nat) : RuntimeDict :=
  match lookupRuntime runtime_dict test_name with
  | none => runtime_dict ++ [(test_name, ⟨duration, num_run⟩)]
  | some info =>
      updateEntry runtime_dict test_name
        ⟨_average info.duration info.num_run duration num_run, info.num_run + num_run⟩

/-- One raw document from the Evergreen `test_stats/` endpoint. -/
structure Sample where
  test_file : String
  avg_duration_pass : ℚ
  num_pass : Nat
deriving Repr, DecidableEq

/-- The two mappings held by a `TestStats` object. -/
structure TestStats where
  runtime_by_test : RuntimeDict
  hook_runtime_by_test : RuntimeDict
deriving Repr, DecidableEq

/-- `TestStats.__init__` before any document is added. -/
def TestStats.empty : TestStats := ⟨[], []⟩

/-- `TestStats._add_stats` (with `_add_test_stats` / `_add_test_hook_stats`
inlined): classify the normalized identifier and merge into the matching
mapping; hooks are keyed by their owning test's name. -/
def TestStats._add_stats (ts : TestStats) (s : Sample) : TestStats :=
  let test_file := normalize_test_file s.test_file
  if is_resmoke_hook test_file then
    { ts with
      hook_runtime_by_test :=
        _add_runtime_info ts.hook_runtime_by_test (split_test_hook_name test_file).1
          s.avg_duration_pass s.num_pass }
  else
    { ts with
      runtime_by_test :=
        _add_runtime_info ts.runtime_by_test test_file s.avg_duration_pass s.num_pass }

/-- `TestStats.__init__`: fold `_add_stats` over the raw documents in order. -/
def TestStats.ofSamples (evg_test_stats_results : List Sample) : TestStats :=
  evg_test_stats_results.foldl TestStats._add_stats TestStats.empty

/-- The `tests` list built inside `get_tests_runtimes` before sorting: one
(test_file, duration) pair per `_runtime_by_test` entry, with a matching
hook's averaged duration added on top. -/
def TestStats.tests_with_hooks (ts : TestStats) : List (String × ℚ) :=
  ts.runtime_by_test.map (fun p =>
    match lookupRuntime ts.hook_runtime_by_test (get_short_name_from_test_file p.1) with
    | some hook_info => (p.1, p.2.duration + hook_info.duration)
    | none => (p.1, p.2.duration))

/-- `TestStats.get_tests_runtimes`: the combined list sorted by runtime
descending (`sorted(..., reverse=True)` is a stable sort, modelled by
`mergeSort` with the reversed comparison). -/
def TestStats.get_tests_runtimes (ts : TestStats) : List (String × ℚ) :=
  ts.tests_with_hooks.mergeSort (fun a b => decide (b.2 ≤ a.2))

/-! ### `class Main` (orchestration) -/

/-- Loop body of `Main.calculate_fallback_suites`:
`suites[idx % num_suites].add_test(test_file, 0)` for each enumerated test. -/
def calculate_fallback_go (num_suites : Nat) : List String → Nat → List Suite → List Suite
  | [], _, suites => suites
  | test_file :: rest, idx, suites =>
      calculate_fallback_go num_suites rest (idx + 1)
        (listModify suites (idx % num_suites) (fun s => s.add_test test_file 0))

/-- `Main.calculate_fallback_suites`: a fixed number of suites, tests assigned
round-robin with runtime weight 0. -/
def calculate_fallback_suites (fallback_num_sub_suites : Nat) (tests : List String) :
    List Suite :=
  calculate_fallback_go fallback_num_sub_suites tests 0
    (List.replicate fallback_num_sub_suites Suite.empty)

/-- `Main.calculate_suites_from_evg_stats`. -/
def calculate_suites_from_evg_stats (data : List Sample) (execution_time_secs : ℚ)
    (max_sub_suites : Option Nat) : List Suite :=
  divide_tests_into_suites (TestStats.ofSamples data).get_tests_runtimes
    execution_time_secs max_sub_suites

/-- Failures the statistics fetch can raise: a `requests.HTTPError` carrying a
status code, or any other exception. -/
inductive FetchError where
  | httpError (status_code : Nat)
  | otherError
deriving Repr, DecidableEq

/-- `requests.codes.SERVICE_UNAVAILABLE`. -/
def SERVICE_UNAVAILABLE : Nat := 503

/-- `Main.calculate_suites` with the outcome of the (external) statistics
fetch passed in as an `Except` value: on success split by stats; on an HTTP
503 fall back to the fixed-count split; re-raise anything else. -/
def calculate_suites (evg_stats : Except FetchError (List Sample))
    (execution_time_secs : ℚ) (max_sub_suites : Option Nat)
    (fallback_num_sub_suites : Nat) (suite_tests : List String) :
    Except FetchError (List Suite) :=
  match evg_stats with
  | .ok data =>
      .ok (calculate_suites_from_evg_stats data execution_time_secs max_sub_suites)
  | .error (.httpError code) =>
      if code = SERVICE_UNAVAILABLE then
        .ok (calculate_fallback_suites fallback_num_sub_suites suite_tests)
      else
        .error (.httpError code)
  | .error .otherError => .error .otherError

/-- The denominator `_average` would be invoked with if `_add_runtime_info`
ran on dict `d` for `test_name` with `num_run` new runs: empty when the
no-merge branch is taken (first sample for the key), otherwise the single
denominator `existing.num_run + num_run`. -/
def mergeDenominator (runtime_dict : RuntimeDict) (test_name : String) (num_run : Nat) :
    List Nat :=
  match lookupRuntime runtime_dict test_name with
  | none => []
  | some info => [info.num_run + num_run]

/-- All denominators passed to `_average` while `TestStats.__init__` ingests
the given documents, in execution order. -/
def ingestDenominators : List Sample → TestStats → List Nat
  | [], _ => []
  | s :: rest, ts =>
      let test_file := normalize_test_file s.test_file
      (if is_resmoke_hook test_file then
        mergeDenominator ts.hook_runtime_by_test (split_test_hook_name test_file).1 s.num_pass
      else
        mergeDenominator ts.runtime_by_test test_file s.num_pass)
        ++ ingestDenominators rest (ts._add_stats s)

/-! ### Basic lemmas about `Suite` and the list helpers -/

@[simp] lemma Suite.tests_add_test (s : Suite) (t : String) (r : ℚ) :
    (s.add_test t r).tests = s.tests ++ [t] := rfl

@[simp] lemma Suite.runtime_add_test (s : Suite) (t : String) (r : ℚ) :
    (s.add_test t r).total_runtime = s.total_runtime + r := rfl

@[simp] lemma Suite.count_add_test (s : Suite) (t : String) (r : ℚ) :
    (s.add_test t r).get_test_count = s.get_test_count + 1 := by
  simp [Suite.get_test_count, Suite.add_test]

@[simp] lemma Suite.tests_empty : Suite.empty.tests = [] := rfl

@[simp] lemma Suite.runtime_empty : Suite.empty.total_runtime = 0 := rfl

@[simp] lemma Suite.count_empty : Suite.empty.get_test_count = 0 := rfl

@[simp] lemma Suite.get_runtime_eq (s : Suite) : s.get_runtime = s.total_runtime := rfl

lemma Suite.tests_eq_nil_of_count (s : Suite) (h : s.get_test_count = 0) : s.tests = [] :=
  List.length_eq_zero.mp h

lemma Suite.eq_empty_iff (s : Suite) : s = Suite.empty ↔ s.tests = [] ∧ s.total_runtime = 0 := by
  cases s; simp [Suite.empty]

@[simp] lemma listModify_length {α : Type} :
    ∀ (l : List α) (i : Nat) (f : α → α), (listModify l i f).length = l.length
  | [], _, _ => rfl
  | _ :: as, 0, f => rfl
  | _ :: as, n + 1, f => by simp [listModify, listModify_length as n f]

lemma listModify_getD_self {α : Type} (d : α) :
    ∀ (l : List α) (i : Nat) (f : α → α), i < l.length →
      (listModify l i f).getD i d = f (l.getD i d)
  | [], i, f, h => by simp at h
  | a :: as, 0, f, _ => rfl
  | a :: as, n + 1, f, h => by
      simpa [listModify] using listModify_getD_self d as n f (Nat.lt_of_succ_lt_succ h)

lemma listModify_getD_ne {α : Type} (d : α) :
    ∀ (l : List α) (i j : Nat) (f : α → α), i ≠ j →
      (listModify l i f).getD j d = l.getD j d
  | [], _, _, _, _ => rfl
  | a :: as, 0, 0, f, h => absurd rfl h
  | a :: as, 0, j + 1, f, _ => rfl
  | a :: as, i + 1, 0, f, _ => rfl
  | a :: as, i + 1, j + 1, f, h => by
      simpa [listModify] using listModify_getD_ne d as i j f (fun hij => h (by omega))

lemma listModify_forall {α : Type} {P : α → Prop} :
    ∀ (l : List α) (i : Nat) (f : α → α), (∀ a ∈ l, P a) → (∀ a, P (f a)) →
      ∀ a ∈ listModify l i f, P a
  | [], _, _, _, _ => by simp [listModify]
  | a :: as, 0, f, h, hf => by
      intro b hb
      rcases List.mem_cons.mp hb with hb | hb
      · exact hb ▸ hf a
      · exact h b (List.mem_cons_of_mem _ hb)
  | a :: as, n + 1, f, h, hf => by
      intro b hb
      rcases List.mem_cons.mp hb with hb | hb
      · exact hb ▸ h a (List.mem_cons_self _ _)
      · exact listModify_forall as n f (fun x hx => h x (List.mem_cons_of_mem _ hx)) hf b hb

@[simp] lemma allTests_nil : allTests [] = [] := rfl

@[simp] lemma allTests_cons (b : Suite) (l : List Suite) :
    allTests (b :: l) = b.tests ++ allTests l := by simp [allTests]

@[simp] lemma allTests_append (s1 s2 : List Suite) :
    allTests (s1 ++ s2) = allTests s1 ++ allTests s2 := by simp [allTests]

lemma allTests_listModify_add (t : String) (r : ℚ) :
    ∀ (l : List Suite) (i : Nat), i < l.length →
      List.Perm (allTests (listModify l i (fun b => b.add_test t r))) (t :: allTests l)
  | [], i, h => by simp at h
  | b :: bs, 0, _ => by
      simp only [listModify, allTests_cons, Suite.tests_add_test, List.append_assoc,
        List.singleton_append]
      exact List.perm_middle
  | b :: bs, n + 1, h => by
      simp only [listModify, allTests_cons]
      exact ((allTests_listModify_add t r bs n (Nat.lt_of_succ_lt_succ h)).append_left
        b.tests).trans List.perm_middle

/-! ### Lemmas about the main packing loop `dtis_loop` -/

/-- The loop moves tests around but the concatenation of closed suites,
current suite, and unconsumed input is invariant. -/
lemma dtis_loop_eq (mt : ℚ) (ms : Option Nat) :
    ∀ (rest : List (String × ℚ)) (suites : List Suite) (current : Suite),
      allTests (dtis_loop mt ms rest suites current).1
        ++ (dtis_loop mt ms rest suites current).2.1.tests
        ++ ((dtis_loop mt ms rest suites current).2.2.map Prod.fst)
        = allTests suites ++ current.tests ++ rest.map Prod.fst
  | [], suites, current => by simp [dtis_loop]
  | (t, r) :: rest, suites, current => by
      simp only [dtis_loop]
      split_ifs with h1 h2 h3
      · simp [Suite.empty]
      · rw [dtis_loop_eq mt ms rest]
        simp [Suite.add_test, Suite.empty]
      · rw [dtis_loop_eq mt ms rest]
        simp [Suite.add_test]
      · rw [dtis_loop_eq mt ms rest]
        simp [Suite.add_test]

/-- If the loop left input unconsumed, the early break fired: `max_suites` is
truthy and at least one suite was closed. -/
lemma dtis_loop_break (mt : ℚ) (ms : Option Nat) :
    ∀ (rest : List (String × ℚ)) (suites : List Suite) (current : Suite),
      (dtis_loop mt ms rest suites current).2.2 ≠ [] →
      natTruthy ms = true ∧ (dtis_loop mt ms rest suites current).1 ≠ []
  | [], suites, current => by simp [dtis_loop]
  | (t, r) :: rest, suites, current => by
      simp only [dtis_loop]
      split_ifs with h1 h2 h3
      · intro _
        exact ⟨h3.1, by simp⟩
      · exact dtis_loop_break mt ms rest _ _
      · exact dtis_loop_break mt ms rest _ _
      · exact dtis_loop_break mt ms rest _ _

/-- Suites already closed stay in the loop's output. -/
lemma dtis_loop_mem_mono (mt : ℚ) (ms : Option Nat) :
    ∀ (rest : List (String × ℚ)) (suites : List Suite) (current : Suite) (b : Suite),
      b ∈ suites → b ∈ (dtis_loop mt ms rest suites current).1
  | [], suites, current, b, hb => by simpa [dtis_loop] using hb
  | (t, r) :: rest, suites, current, b, hb => by
      simp only [dtis_loop]
      split_ifs with h1 h2 h3
      · exact List.mem_append_left _ hb
      · exact dtis_loop_mem_mono mt ms rest _ _ b (List.mem_append_left _ hb)
      · exact dtis_loop_mem_mono mt ms rest _ _ b hb
      · exact dtis_loop_mem_mono mt ms rest _ _ b hb

lemma mem_closeBins_of_mem {b : Suite} {suites : List Suite} (c : Suite)
    (h : b ∈ suites) : b ∈ closeBins suites c := by
  unfold closeBins
  split
  · exact List.mem_append_left _ h
  · exact h

lemma allTests_closeBins (suites : List Suite) (c : Suite) :
    allTests (closeBins suites c) = allTests suites ++ c.tests := by
  unfold closeBins
  split_ifs with h
  · simp
  · simp [Suite.tests_eq_nil_of_count c (by omega)]

/-- Soundness of the greedy pass: every bin it closes is non-empty, and a bin
holding at least two tests stayed within the budget (the check
`runtime + new > max` only lets a test in when it fits, except as the first
test of a bin). -/
lemma dtis_loop_binOk (mt : ℚ) (ms : Option Nat) :
    ∀ (rest : List (String × ℚ)) (suites : List Suite) (current : Suite),
      (∀ b ∈ suites, 0 < b.get_test_count ∧ (2 ≤ b.get_test_count → b.get_runtime ≤ mt)) →
      (2 ≤ current.get_test_count → current.get_runtime ≤ mt) →
      ∀ b ∈ closeBins (dtis_loop mt ms rest suites current).1
          (dtis_loop mt ms rest suites current).2.1,
        0 < b.get_test_count ∧ (2 ≤ b.get_test_count → b.get_runtime ≤ mt)
  | [], suites, current, hs, hc => by
      simp only [dtis_loop, closeBins]
      split_ifs with h
      · intro b hb
        rcases List.mem_append.mp hb with hb | hb
        · exact hs b hb
        · rcases List.mem_singleton.mp hb with rfl
          exact ⟨h, hc⟩
      · exact hs
  | (t, r) :: rest, suites, current, hs, hc => by
      simp only [dtis_loop]
      split_ifs with h1 h2 h3
      · -- break: the fresh current suite is empty, so only closed bins remain
        simp only [closeBins, Suite.count_empty]
        intro b hb
        rcases List.mem_append.mp hb with hb | hb
        · exact hs b hb
        · rcases List.mem_singleton.mp hb with rfl
          exact ⟨h2, hc⟩
      · -- close the current bin and start a new one holding only (t, r)
        refine dtis_loop_binOk mt ms rest _ _ ?_ ?_
        · intro b hb
          rcases List.mem_append.mp hb with hb | hb
          · exact hs b hb
          · rcases List.mem_singleton.mp hb with rfl
            exact ⟨h2, hc⟩
        · intro habs
          simp at habs
      · -- the current bin is empty: (t, r) becomes its first test
        refine dtis_loop_binOk mt ms rest _ _ hs ?_
        intro habs
        simp only [Suite.count_add_test] at habs
        omega
      · -- (t, r) fits: the bin's new runtime is at most the budget
        refine dtis_loop_binOk mt ms rest _ _ hs ?_
        intro _
        simp only [Suite.get_runtime_eq, Suite.runtime_add_test]
        simpa [Suite.get_runtime] using le_of_not_lt (fun hlt => h1 (by simpa [Suite.get_runtime] using hlt))

/-- A non-empty current bin whose runtime already exceeds the budget survives
the rest of the loop untouched (every further test opens a new bin first),
provided the remaining durations are non-negative and no bin cap is set. -/
lemma dtis_loop_keeps_big (mt : ℚ) :
    ∀ (rest : List (String × ℚ)) (suites : List Suite) (c : Suite),
      (∀ p ∈ rest, 0 ≤ p.2) → mt < c.get_runtime → 0 < c.get_test_count →
      c ∈ closeBins (dtis_loop mt none rest suites c).1 (dtis_loop mt none rest suites c).2.1
  | [], suites, c, _, _, hcount => by
      simp only [dtis_loop, closeBins]
      rw [if_pos hcount]
      exact List.mem_append_right _ (List.mem_singleton_self c)
  | (t1, r1) :: rest, suites, c, hnn, hbig, hcount => by
      have hr1 : (0 : ℚ) ≤ r1 := hnn (t1, r1) (List.mem_cons_self _ _)
      have hcond : c.get_runtime + r1 > mt := by
        have := add_le_add_left hr1 c.get_runtime
        simp only [add_zero] at this
        linarith
      have hbreak : ¬(natTruthy none = true ∧ suites.length + 1 ≥ (none : Option Nat).getD 0) := by
        simp [natTruthy]
      simp only [dtis_loop]
      rw [if_pos hcond, if_pos hcount, if_neg hbreak]
      exact mem_closeBins_of_mem _
        (dtis_loop_mem_mono mt none rest _ _ c
          (List.mem_append_right _ (List.mem_singleton_self c)))

/-- A test whose duration alone exceeds the budget ends up isolated in a bin of
its own (no-bin-cap run, non-negative durations). -/
lemma dtis_loop_oversized (mt : ℚ) (t : String) (r : ℚ) (hr : mt < r) :
    ∀ (rest : List (String × ℚ)) (suites : List Suite) (current : Suite),
      (∀ p ∈ rest, 0 ≤ p.2) → (t, r) ∈ rest →
      (current.get_test_count = 0 → current = Suite.empty) →
      0 ≤ current.get_runtime →
      ∃ b ∈ closeBins (dtis_loop mt none rest suites current).1
          (dtis_loop mt none rest suites current).2.1,
        b.tests = [t] ∧ b.get_runtime = r
  | [], _, _, _, hmem, _, _ => by simp at hmem
  | (t1, r1) :: rest, suites, current, hnn, hmem, hcur0, hcurnn => by
      have hnn' : ∀ p ∈ rest, (0 : ℚ) ≤ p.2 :=
        fun p hp => hnn p (List.mem_cons_of_mem _ hp)
      have hbreak : ¬(natTruthy none = true ∧ suites.length + 1 ≥ (none : Option Nat).getD 0) := by
        simp [natTruthy]
      rcases List.mem_cons.mp hmem with heq | hmem'
      · -- the head of the remaining input is the oversized test itself
        rw [Prod.mk.injEq] at heq
        obtain ⟨rfl, rfl⟩ := heq
        have hcond : current.get_runtime + r > mt := by linarith
        by_cases hcount : current.get_test_count > 0
        · -- close the current bin; the oversized test opens a fresh singleton bin
          simp only [dtis_loop]
          rw [if_pos hcond, if_pos hcount, if_neg hbreak]
          refine ⟨Suite.empty.add_test t r, ?_, by simp, by simp⟩
          exact dtis_loop_keeps_big mt rest _ _ hnn'
            (by simpa using hr) (by simp)
        · -- the current bin is empty: the oversized test is added to it
          simp only [dtis_loop]
          rw [if_pos hcond, if_neg hcount]
          have hce : current = Suite.empty := hcur0 (by omega)
          subst hce
          refine ⟨Suite.empty.add_test t r, ?_, by simp, by simp⟩
          exact dtis_loop_keeps_big mt rest _ _ hnn'
            (by simpa using hr) (by simp)
      · -- the oversized test lies further on: step once and recurse
        have hr1 : (0 : ℚ) ≤ r1 := hnn (t1, r1) (List.mem_cons_self _ _)
        simp only [dtis_loop]
        by_cases h1 : current.get_runtime + r1 > mt
        · by_cases h2 : current.get_test_count > 0
          · rw [if_pos h1, if_pos h2, if_neg hbreak]
            exact dtis_loop_oversized mt t r hr rest _ _ hnn' hmem'
              (by simp) (by simpa using hr1)
          · rw [if_pos h1, if_neg h2]
            exact dtis_loop_oversized mt t r hr rest _ _ hnn' hmem'
              (by simp) (by simpa using add_nonneg hcurnn hr1)
        · rw [if_neg h1]
          exact dtis_loop_oversized mt t r hr rest _ _ hnn' hmem'
            (by simp) (by simpa using add_nonneg hcurnn hr1)

/-! ### Lemmas about the round-robin distribution -/

@[simp] lemma divide_remaining_go_length :
    ∀ (rem : List (String × ℚ)) (suites : List Suite) (idx : Nat),
      (divide_remaining_go rem suites idx).length = suites.length
  | [], _, _ => rfl
  | (t, r) :: rest, suites, idx => by
      simp [divide_remaining_go, divide_remaining_go_length rest]

lemma divide_remaining_go_perm :
    ∀ (rem : List (String × ℚ)) (suites : List Suite) (idx : Nat), idx < suites.length →
      List.Perm (allTests (divide_remaining_go rem suites idx))
        (rem.map Prod.fst ++ allTests suites)
  | [], suites, idx, _ => by simp [divide_remaining_go]
  | (t, r) :: rest, suites, idx, hidx => by
      have hlen0 : 0 < suites.length := Nat.lt_of_le_of_lt (Nat.zero_le idx) hidx
      have hidx' :
          (if idx + 1 ≥ suites.length then 0 else idx + 1) <
            (listModify suites idx (fun s => s.add_test t r)).length := by
        rw [listModify_length]
        split_ifs <;> omega
      have ih := divide_remaining_go_perm rest _ _ hidx'
      simp only [divide_remaining_go]
      refine ih.trans ?_
      refine ((allTests_listModify_add t r suites idx hidx).append_left
        (rest.map Prod.fst)).trans ?_
      simp only [List.map_cons, List.cons_append]
      exact List.perm_middle

lemma divide_remaining_go_pos :
    ∀ (rem : List (String × ℚ)) (suites : List Suite) (idx : Nat),
      (∀ b ∈ suites, 0 < b.get_test_count) →
      ∀ b ∈ divide_remaining_go rem suites idx, 0 < b.get_test_count
  | [], suites, idx, h => by simpa [divide_remaining_go] using h
  | (t, r) :: rest, suites, idx, h => by
      simp only [divide_remaining_go]
      refine divide_remaining_go_pos rest _ _ ?_
      exact listModify_forall suites idx _ h (fun a => by simp)

lemma roundRobinSlice_mod {α : Type} (n j : Nat) :
    ∀ (l : List α) (i : Nat), roundRobinSlice l n i j = roundRobinSlice l n (i % n) j
  | [], _ => rfl
  | x :: rest, i => by
      have h1 : i % n % n = i % n := Nat.mod_mod_of_dvd i dvd_rfl
      simp only [roundRobinSlice, h1]
      rw [roundRobinSlice_mod n j rest (i + 1), roundRobinSlice_mod n j rest (i % n + 1),
        Nat.mod_add_mod]

lemma roundRobinSlice_nil_of_le {α : Type} (n : Nat) :
    ∀ (l : List α) (i j : Nat), l.length + i ≤ j → j < n → roundRobinSlice l n i j = []
  | [], _, _, _, _ => rfl
  | x :: rest, i, j, hle, hlt => by
      have hlenc : (x :: rest).length = rest.length + 1 := by simp
      have hi : i < n := by omega
      have hij : ¬ i = j := by omega
      simp only [roundRobinSlice, Nat.mod_eq_of_lt hi, if_neg hij]
      simpa using roundRobinSlice_nil_of_le n rest (i + 1) j (by omega) hlt

/-- Per-bin characterization of the round-robin pass: bin `j` receives exactly
the leftover tests whose running offset is congruent to `j` modulo the number
of bins. -/
lemma divide_remaining_go_getD :
    ∀ (rem : List (String × ℚ)) (suites : List Suite) (idx : Nat) (j : Nat),
      idx < suites.length → j < suites.length →
      ((divide_remaining_go rem suites idx).getD j Suite.empty).tests
        = (suites.getD j Suite.empty).tests
          ++ (roundRobinSlice rem suites.length idx j).map Prod.fst
  | [], suites, idx, j, _, _ => by simp [divide_remaining_go, roundRobinSlice]
  | (t, r) :: rest, suites, idx, j, hidx, hj => by
      have hlen0 : 0 < suites.length := Nat.lt_of_le_of_lt (Nat.zero_le idx) hidx
      have hmodl : (listModify suites idx (fun s => s.add_test t r)).length = suites.length :=
        listModify_length suites idx _
      have hidx'lt : (if idx + 1 ≥ suites.length then 0 else idx + 1) <
          (listModify suites idx (fun s => s.add_test t r)).length := by
        rw [hmodl]; split_ifs <;> omega
      have hidxmod : idx % suites.length = idx := Nat.mod_eq_of_lt hidx
      have hwrap : (if idx + 1 ≥ suites.length then 0 else idx + 1) = (idx + 1) % suites.length := by
        split_ifs with hge
        · have : idx + 1 = suites.length := by omega
          rw [this, Nat.mod_self]
        · exact (Nat.mod_eq_of_lt (by omega)).symm
      have ih := divide_remaining_go_getD rest _ _ j hidx'lt (by rw [hmodl]; exact hj)
      simp only [divide_remaining_go] at ih ⊢
      rw [ih, hmodl, hwrap, ← roundRobinSlice_mod, roundRobinSlice, hidxmod]
      by_cases hij : idx = j
      · subst hij
        rw [listModify_getD_self Suite.empty suites idx _ hidx]
        simp
      · rw [listModify_getD_ne Suite.empty suites idx j _ hij]
        simp [hij]

/-! ### Unfolding equations for the packer (the tuple `match` reduces by
structure eta) -/

lemma dtis_phase1_def (tests_runtimes : List (String × ℚ)) (max_time_seconds : ℚ)
    (max_suites : Option Nat) :
    dtis_phase1 tests_runtimes max_time_seconds max_suites
      = closeBins (dtis_loop max_time_seconds max_suites tests_runtimes [] Suite.empty).1
          (dtis_loop max_time_seconds max_suites tests_runtimes [] Suite.empty).2.1 := rfl

lemma divide_tests_into_suites_def (tests_runtimes : List (String × ℚ))
    (max_time_seconds : ℚ) (max_suites : Option Nat) :
    divide_tests_into_suites tests_runtimes max_time_seconds max_suites
      = (if natTruthy max_suites
            ∧ (dtis_loop max_time_seconds max_suites tests_runtimes [] Suite.empty).2.2 ≠ [] then
          divide_remaining_tests_among_suites
            (dtis_loop max_time_seconds max_suites tests_runtimes [] Suite.empty).2.2
            (closeBins (dtis_loop max_time_seconds max_suites tests_runtimes [] Suite.empty).1
              (dtis_loop max_time_seconds max_suites tests_runtimes [] Suite.empty).2.1)
        else
          closeBins (dtis_loop max_time_seconds max_suites tests_runtimes [] Suite.empty).1
            (dtis_loop max_time_seconds max_suites tests_runtimes [] Suite.empty).2.1) := rfl

/-! ### Claim theorems for the bin packer -/

/-- C1: for every non-empty list of (test, duration) pairs, every positive
`max_bin_seconds` and any optional `max_bins`, the multiset of tests in the
bins returned by `divide_tests_into_suites` equals the input multiset: no test
is dropped and none is duplicated, also when the `max_bins` early stop fires
and the leftovers are distributed round-robin. -/
theorem divide_tests_totality (tests_runtimes : List (String × ℚ)) (max_time_seconds : ℚ)
    (max_suites : Option Nat) (hne : tests_runtimes ≠ []) (hpos : 0 < max_time_seconds) :
    List.Perm (allTests (divide_tests_into_suites tests_runtimes max_time_seconds max_suites))
      (tests_runtimes.map Prod.fst) := by
  have key := dtis_loop_eq max_time_seconds max_suites tests_runtimes [] Suite.empty
  simp only [allTests_nil, Suite.tests_empty, List.nil_append] at key
  rw [divide_tests_into_suites_def]
  by_cases hrem : (dtis_loop max_time_seconds max_suites tests_runtimes [] Suite.empty).2.2 = []
  · rw [if_neg (by simp [hrem])]
    rw [allTests_closeBins]
    rw [hrem] at key
    simp only [List.map_nil, List.append_nil] at key
    rw [key]
  · obtain ⟨htruthy, hsne⟩ :=
      dtis_loop_break max_time_seconds max_suites tests_runtimes [] Suite.empty hrem
    rw [if_pos ⟨htruthy, hrem⟩]
    unfold divide_remaining_tests_among_suites
    have hlen : 0 < (closeBins
        (dtis_loop max_time_seconds max_suites tests_runtimes [] Suite.empty).1
        (dtis_loop max_time_seconds max_suites tests_runtimes [] Suite.empty).2.1).length := by
      unfold closeBins
      split_ifs
      · simp
      · exact List.length_pos.mpr hsne
    refine (divide_remaining_go_perm _ _ 0 hlen).trans ?_
    rw [allTests_closeBins, ← key]
    exact List.perm_append_comm

/-- C1 witness: the totality theorem applied at a concrete input. -/
theorem divide_tests_totality_witness :
    List.Perm (allTests (divide_tests_into_suites [("a", 100)] 150 none))
      ([("a", (100 : ℚ))].map Prod.fst) :=
  divide_tests_totality [("a", 100)] 150 none (by simp) (by norm_num)

/-- C2: the leftover tests handed to `divide_remaining_tests_among_suites` are
assigned to the existing bins in strict round-robin order starting at bin 0
(leftover test i goes to bin i mod number-of-bins), and the spec's concrete
`max_bins` example produces exactly the bins {A,C} and {B,D}. -/
theorem remaining_round_robin :
    (∀ (remaining : List (String × ℚ)) (suites : List Suite) (j : Nat),
        0 < suites.length → j < suites.length →
        ((divide_remaining_tests_among_suites remaining suites).getD j Suite.empty).tests
          = (suites.getD j Suite.empty).tests
            ++ (roundRobinSlice remaining suites.length 0 j).map Prod.fst)
    ∧ (divide_tests_into_suites [("A", 100), ("B", 100), ("C", 100), ("D", 100)] 150
        (some 2)).map Suite.tests = [["A", "C"], ["B", "D"]] := by
  constructor
  · intro remaining suites j h0 hj
    exact divide_remaining_go_getD remaining suites 0 j h0 hj
  · norm_num [divide_tests_into_suites, dtis_loop, Suite.empty, Suite.add_test,
      Suite.get_runtime, Suite.get_test_count, natTruthy, closeBins,
      divide_remaining_tests_among_suites, divide_remaining_go, listModify]
    simp

/-- C2 witness: the round-robin characterization applied at a concrete
input. -/
theorem remaining_round_robin_witness :
    ((divide_remaining_tests_among_suites [("X", 1)] [Suite.empty]).getD 0 Suite.empty).tests
      = (([Suite.empty] : List Suite).getD 0 Suite.empty).tests
        ++ (roundRobinSlice [("X", (1 : ℚ))] 1 0 0).map Prod.fst :=
  remaining_round_robin.1 [("X", 1)] [Suite.empty] 0 (by simp) (by simp)

/-- C3: with non-negative durations, every bin of the greedy pass (the bins
untouched by the round-robin overflow path) is non-empty and, when it holds at
least two tests, stays within the budget — so only the first test placed in a
bin may push it over `max_bin_seconds`; a single oversized test occupies a bin
alone; and without a bin cap the packer output is exactly the greedy pass. -/
theorem greedy_budget_respected (tests_runtimes : List (String × ℚ)) (max_time_seconds : ℚ)
    (hnn : ∀ p ∈ tests_runtimes, 0 ≤ p.2) :
    (∀ (max_suites : Option Nat),
        ∀ b ∈ dtis_phase1 tests_runtimes max_time_seconds max_suites,
          0 < b.get_test_count ∧ (2 ≤ b.get_test_count → b.get_runtime ≤ max_time_seconds))
    ∧ (∀ t r, (t, r) ∈ tests_runtimes → max_time_seconds < r →
        ∃ b ∈ dtis_phase1 tests_runtimes max_time_seconds none,
          b.tests = [t] ∧ b.get_runtime = r)
    ∧ divide_tests_into_suites tests_runtimes max_time_seconds none
        = dtis_phase1 tests_runtimes max_time_seconds none := by
  refine ⟨?_, ?_, ?_⟩
  · intro max_suites b hb
    rw [dtis_phase1_def] at hb
    exact dtis_loop_binOk max_time_seconds max_suites tests_runtimes [] Suite.empty
      (by simp) (by simp) b hb
  · intro t r hmem hbig
    rw [dtis_phase1_def]
    exact dtis_loop_oversized max_time_seconds t r hbig tests_runtimes [] Suite.empty
      hnn hmem (fun _ => rfl) (by simp)
  · rw [divide_tests_into_suites_def, dtis_phase1_def, if_neg]
    simp [natTruthy]

/-- C3 witness: the budget theorem applied at a concrete input. -/
theorem greedy_budget_respected_witness :
    divide_tests_into_suites [("a", (200 : ℚ))] 100 none
      = dtis_phase1 [("a", 200)] 100 none :=
  (greedy_budget_respected [("a", 200)] 100 (by norm_num)).2.2

/-! ### Lemmas about the statistics dictionaries -/

lemma lookupRuntime_mem :
    ∀ (d : RuntimeDict) (test_name : String) (info : RuntimeInfo),
      lookupRuntime d test_name = some info → (test_name, info) ∈ d
  | [], _, _, h => by simp [lookupRuntime] at h
  | (k, v) :: rest, test_name, info, h => by
      by_cases hk : k = test_name
      · subst hk
        have hv : v = info := by simpa [lookupRuntime] using h
        subst hv
        exact List.mem_cons_self _ _
      · simp only [lookupRuntime, if_neg hk] at h
        exact List.mem_cons_of_mem _ (lookupRuntime_mem rest test_name info h)

lemma lookupRuntime_updateEntry_self :
    ∀ (d : RuntimeDict) (test_name : String) (info newv : RuntimeInfo),
      lookupRuntime d test_name = some info →
      lookupRuntime (updateEntry d test_name newv) test_name = some newv
  | [], _, _, _, h => by simp [lookupRuntime] at h
  | (k, v) :: rest, test_name, info, newv, h => by
      by_cases hk : k = test_name
      · simp [updateEntry, lookupRuntime, hk]
      · simp only [lookupRuntime, if_neg hk] at h
        simp only [updateEntry, if_neg hk, lookupRuntime]
        exact lookupRuntime_updateEntry_self rest test_name info newv h

lemma mem_updateEntry :
    ∀ (d : RuntimeDict) (test_name : String) (newv : RuntimeInfo) (p : String × RuntimeInfo),
      p ∈ updateEntry d test_name newv → p ∈ d ∨ p = (test_name, newv)
  | [], _, _, p, h => by simp [updateEntry] at h
  | (k, v) :: rest, test_name, newv, p, h => by
      by_cases hk : k = test_name
      · subst hk
        simp only [updateEntry, if_pos rfl] at h
        rcases List.mem_cons.mp h with h | h
        · exact Or.inr h
        · exact Or.inl (List.mem_cons_of_mem _ h)
      · simp only [updateEntry, if_neg hk] at h
        rcases List.mem_cons.mp h with h | h
        · exact Or.inl (h ▸ List.mem_cons_self _ _)
        · rcases mem_updateEntry rest test_name newv p h with h | h
          · exact Or.inl (List.mem_cons_of_mem _ h)
          · exact Or.inr h

lemma updateEntry_map_fst :
    ∀ (d : RuntimeDict) (test_name : String) (newv : RuntimeInfo),
      (updateEntry d test_name newv).map Prod.fst = d.map Prod.fst
  | [], _, _ => rfl
  | (k, v) :: rest, test_name, newv => by
      by_cases hk : k = test_name
      · simp [updateEntry, hk]
      · simp [updateEntry, hk, updateEntry_map_fst rest test_name newv]

/-- Key soundness of one merge step: every entry of the updated dict either
was already present or carries the inserted key. -/
lemma mem_add_runtime_info (d : RuntimeDict) (test_name : String) (duration : ℚ)
    (num_run : Nat) (p : String × RuntimeInfo)
    (hp : p ∈ _add_runtime_info d test_name duration num_run) :
    p ∈ d ∨ (p.1 = test_name ∧ p.2.num_run = num_run)
      ∨ (∃ info : RuntimeInfo, (test_name, info) ∈ d ∧ p = (test_name,
          ⟨_average info.duration info.num_run duration num_run, info.num_run + num_run⟩)) := by
  unfold _add_runtime_info at hp
  rcases hlook : lookupRuntime d test_name with _ | info
  · rw [hlook] at hp
    rcases List.mem_append.mp hp with h | h
    · exact Or.inl h
    · rcases List.mem_singleton.mp h with rfl
      exact Or.inr (Or.inl ⟨rfl, rfl⟩)
  · rw [hlook] at hp
    rcases mem_updateEntry d test_name _ p hp with h | h
    · exact Or.inl h
    · exact Or.inr (Or.inr ⟨info, lookupRuntime_mem d test_name info hlook, h⟩)

/-- Every stored run count stays at least 1 as long as every ingested count is
at least 1. -/
lemma add_runtime_info_counts (d : RuntimeDict) (test_name : String) (duration : ℚ)
    (num_run : Nat) (hd : ∀ p ∈ d, 1 ≤ p.2.num_run) (hnum : 1 ≤ num_run) :
    ∀ p ∈ _add_runtime_info d test_name duration num_run, 1 ≤ p.2.num_run := by
  intro p hp
  rcases mem_add_runtime_info d test_name duration num_run p hp with h | h | ⟨info, hinfo, rfl⟩
  · exact hd p h
  · omega
  · have := hd (test_name, info) hinfo
    simp only at this ⊢
    omega

/-- The two dict invariants needed for denominator positivity survive one
ingested document. -/
lemma add_stats_counts (ts : TestStats) (s : Sample)
    (hrt : ∀ p ∈ ts.runtime_by_test, 1 ≤ p.2.num_run)
    (hhk : ∀ p ∈ ts.hook_runtime_by_test, 1 ≤ p.2.num_run)
    (hnum : 1 ≤ s.num_pass) :
    (∀ p ∈ (ts._add_stats s).runtime_by_test, 1 ≤ p.2.num_run)
      ∧ (∀ p ∈ (ts._add_stats s).hook_runtime_by_test, 1 ≤ p.2.num_run) := by
  by_cases hhook : is_resmoke_hook (normalize_test_file s.test_file) = true
  · simp only [TestStats._add_stats, hhook, if_true]
    exact ⟨hrt, add_runtime_info_counts _ _ _ _ hhk hnum⟩
  · simp only [TestStats._add_stats, hhook, if_false]
    exact ⟨add_runtime_info_counts _ _ _ _ hrt hnum, hhk⟩

/-- Generalized denominator positivity across an ingestion run. -/
lemma ingestDenominators_pos :
    ∀ (samples : List Sample) (ts : TestStats),
      (∀ s ∈ samples, 1 ≤ s.num_pass) →
      (∀ p ∈ ts.runtime_by_test, 1 ≤ p.2.num_run) →
      (∀ p ∈ ts.hook_runtime_by_test, 1 ≤ p.2.num_run) →
      ∀ k ∈ ingestDenominators samples ts, 0 < k
  | [], _, _, _, _ => by simp [ingestDenominators]
  | s :: rest, ts, hs, hrt, hhk => by
      intro k hk
      have hnum : 1 ≤ s.num_pass := hs s (List.mem_cons_self _ _)
      simp only [ingestDenominators, List.mem_append] at hk
      rcases hk with hk | hk
      · split_ifs at hk with hhook
        · unfold mergeDenominator at hk
          rcases hlook : lookupRuntime ts.hook_runtime_by_test
              (split_test_hook_name (normalize_test_file s.test_file)).1 with _ | info
          · rw [hlook] at hk
            simp at hk
          · rw [hlook] at hk
            rcases List.mem_singleton.mp hk with rfl
            have := hhk _ (lookupRuntime_mem _ _ _ hlook)
            simp only at this
            omega
        · unfold mergeDenominator at hk
          rcases hlook : lookupRuntime ts.runtime_by_test
              (normalize_test_file s.test_file) with _ | info
          · rw [hlook] at hk
            simp at hk
          · rw [hlook] at hk
            rcases List.mem_singleton.mp hk with rfl
            have := hrt _ (lookupRuntime_mem _ _ _ hlook)
            simp only at this
            omega
      · have hpres := add_stats_counts ts s hrt hhk hnum
        exact ingestDenominators_pos rest (ts._add_stats s)
          (fun x hx => hs x (List.mem_cons_of_mem _ hx)) hpres.1 hpres.2 k hk

/-! ### Claim theorems for the statistics aggregation -/

/-- C4: merging two timing samples for the same test combines them by the
weighted average `(d_a * n_a + d_b * n_b) / (n_a + n_b)` and sums the run
counts, incrementally in ingestion order; merging (10s, 5 runs) with
(20s, 5 runs) yields duration 15.0s and num_run 10. -/
theorem weighted_average_merge :
    (∀ (value_a : ℚ) (num_a : Nat) (value_b : ℚ) (num_b : Nat),
        _average value_a num_a value_b num_b
          = (value_a * num_a + value_b * num_b) / (num_a + num_b))
    ∧ (∀ (d : RuntimeDict) (test_name : String) (info : RuntimeInfo)
          (duration : ℚ) (num_run : Nat),
        lookupRuntime d test_name = some info →
        lookupRuntime (_add_runtime_info d test_name duration num_run) test_name
          = some ⟨_average info.duration info.num_run duration num_run,
              info.num_run + num_run⟩)
    ∧ _average 10 5 20 5 = 15
    ∧ lookupRuntime (TestStats.ofSamples
          [⟨"jstests/core/foo.js", 10, 5⟩, ⟨"jstests/core/foo.js", 20, 5⟩]).runtime_by_test
        ("jstests/core/foo.js") = some ⟨15, 10⟩ := by
  refine ⟨fun _ _ _ _ => rfl, ?_, by norm_num [_average], ?_⟩
  · intro d test_name info duration num_run hlook
    unfold _add_runtime_info
    rw [hlook]
    exact lookupRuntime_updateEntry_self d test_name info _ hlook
  · norm_num +decide [TestStats.ofSamples, TestStats._add_stats, TestStats.empty,
      _add_runtime_info, lookupRuntime, updateEntry, _average, normalize_test_file,
      is_resmoke_hook, split_test_hook_name]

/-- C4 witness: the merge equation applied at a concrete dict. -/
theorem weighted_average_merge_witness :
    lookupRuntime (_add_runtime_info [("x", ⟨10, 5⟩)] ("x") 20 5) ("x")
      = some ⟨_average 10 5 20 5, 10⟩ :=
  weighted_average_merge.2.1 [("x", ⟨10, 5⟩)] ("x") ⟨10, 5⟩ 20 5 (by simp [lookupRuntime])

/-- C9: if every ingested raw record carries at least one passing run, every
denominator handed to `_average` during aggregation is strictly positive, so
the weighted-average division is never a division by zero. -/
theorem merge_denominator_positive (samples : List Sample)
    (h : ∀ s ∈ samples, 1 ≤ s.num_pass) :
    ∀ k ∈ ingestDenominators samples TestStats.empty, 0 < k :=
  ingestDenominators_pos samples TestStats.empty h (by simp [TestStats.empty])
    (by simp [TestStats.empty])

/-- C9 witness: the positivity theorem applied at a concrete two-sample run
whose single merge has denominator 2. -/
theorem merge_denominator_positive_witness : 0 < 2 :=
  merge_denominator_positive [⟨"a", 1, 1⟩, ⟨"a", 2, 1⟩] (by norm_num) 2
    (by norm_num +decide [ingestDenominators, mergeDenominator, TestStats.empty,
      TestStats._add_stats, _add_runtime_info, lookupRuntime, updateEntry,
      normalize_test_file, is_resmoke_hook, split_test_hook_name])

/-! ### Lemmas for hook folding and output ordering -/

/-- Keys of `_runtime_by_test` never name hooks: hook samples are routed to
the hook dict by `_add_stats`. -/
lemma foldl_add_stats_keys :
    ∀ (samples : List Sample) (ts : TestStats),
      (∀ p ∈ ts.runtime_by_test, is_resmoke_hook p.1 = false) →
      ∀ p ∈ (samples.foldl TestStats._add_stats ts).runtime_by_test,
        is_resmoke_hook p.1 = false
  | [], ts, h => by simpa using h
  | s :: rest, ts, h => by
      rw [List.foldl_cons]
      refine foldl_add_stats_keys rest (ts._add_stats s) ?_
      intro p hp
      by_cases hhook : is_resmoke_hook (normalize_test_file s.test_file) = true
      · simp only [TestStats._add_stats, hhook, if_true] at hp
        exact h p hp
      · simp only [TestStats._add_stats, hhook, if_false] at hp
        rcases mem_add_runtime_info _ _ _ _ p hp with hm | ⟨hk, _⟩ | ⟨info, _, rfl⟩
        · exact h p hm
        · rw [hk]
          exact Bool.not_eq_true _ ▸ hhook
        · exact Bool.not_eq_true _ ▸ hhook

/-- Every output row of `tests_with_hooks` keeps the key of the
`_runtime_by_test` entry it was built from. -/
lemma mem_tests_with_hooks_fst (ts : TestStats) (p : String × ℚ)
    (hp : p ∈ ts.tests_with_hooks) : ∃ info, (p.1, info) ∈ ts.runtime_by_test := by
  unfold TestStats.tests_with_hooks at hp
  rcases List.mem_map.mp hp with ⟨q, hq, hfq⟩
  refine ⟨q.2, ?_⟩
  rcases hres : lookupRuntime ts.hook_runtime_by_test (get_short_name_from_test_file q.1)
      with _ | info
  · simp only [hres] at hfq
    have h1 : p.1 = q.1 := by rw [← hfq]
    rw [h1]
    exact hq
  · simp only [hres] at hfq
    have h1 : p.1 = q.1 := by rw [← hfq]
    rw [h1]
    exact hq

/-- Sorting with a stable merge sort does not reorder elements the comparison
cannot distinguish: filtering by any class on which the comparison always
holds yields the same list before and after sorting. -/
lemma mergeSort_filter_stable {α : Type} (le : α → α → Bool)
    (htrans : ∀ (a b c : α), le a b = true → le b c = true → le a c = true)
    (htotal : ∀ (a b : α), (le a b || le b a) = true)
    (p : α → Bool) (hp : ∀ a b, p a = true → p b = true → le a b = true) (l : List α) :
    (l.mergeSort le).filter p = l.filter p := by
  have hpair : List.Pairwise (fun a b => le a b = true) (l.filter p) := by
    induction l with
    | nil => simp
    | cons x xs ih =>
        by_cases hx : p x = true
        · rw [List.filter_cons_of_pos hx]
          exact List.Pairwise.cons (fun b hb => hp x b hx (List.of_mem_filter hb)) ih
        · rw [List.filter_cons_of_neg (by simpa using hx)]
          exact ih
  have hsub : List.Sublist (l.filter p) (l.mergeSort le) :=
    List.sublist_mergeSort htrans htotal hpair (List.filter_sublist l)
  have hperm : List.Perm ((l.mergeSort le).filter p) (l.filter p) :=
    (List.mergeSort_perm l le).filter p
  have hsub2 : List.Sublist (l.filter p) ((l.mergeSort le).filter p) := by
    have h2 := hsub.filter p
    simpa only [List.filter_filter, Bool.and_self] using h2
  exact (hsub2.eq_of_length hperm.length_eq.symm).symm

/-- Helper for C6(a): the output list is pairwise non-increasing in the
combined duration. -/
lemma get_tests_runtimes_sorted (ts : TestStats) :
    List.Pairwise (fun a b : String × ℚ => b.2 ≤ a.2) ts.get_tests_runtimes := by
  unfold TestStats.get_tests_runtimes
  refine List.Pairwise.imp (fun h => of_decide_eq_true h)
    (List.sorted_mergeSort ?_ ?_ ts.tests_with_hooks)
  · intro a b c h1 h2
    exact decide_eq_true (le_trans (of_decide_eq_true h2) (of_decide_eq_true h1))
  · intro a b
    simpa using le_total b.2 a.2

/-! ### Claim theorems for hook folding and output ordering -/

/-- C5: a test whose short name has a matching hook entry reports its own
averaged duration plus the hook's averaged duration (summed, not
re-averaged) — e.g. 5.0s + 2.0s = 7.0s — and no hook identifier ever appears
as a standalone entry in the output of `get_tests_runtimes`. -/
theorem hook_folding :
    (∀ (ts : TestStats) (test_file : String) (info hook_info : RuntimeInfo),
        (test_file, info) ∈ ts.runtime_by_test →
        lookupRuntime ts.hook_runtime_by_test (get_short_name_from_test_file test_file)
          = some hook_info →
        (test_file, info.duration + hook_info.duration) ∈ ts.get_tests_runtimes)
    ∧ (∀ (samples : List Sample) (p : String × ℚ),
        p ∈ (TestStats.ofSamples samples).get_tests_runtimes →
        is_resmoke_hook p.1 = false)
    ∧ (TestStats.ofSamples [⟨"jstests/core/foo.js", 5, 1⟩,
        ⟨"foo:CleanEveryN", 2, 1⟩]).get_tests_runtimes
        = [("jstests/core/foo.js", 7)] := by
  refine ⟨?_, ?_, ?_⟩
  · intro ts test_file info hook_info hmem hlook
    unfold TestStats.get_tests_runtimes
    rw [List.mem_mergeSort]
    unfold TestStats.tests_with_hooks
    have hm := List.mem_map_of_mem (fun p : String × RuntimeInfo =>
      match lookupRuntime ts.hook_runtime_by_test (get_short_name_from_test_file p.1) with
      | some hook_info2 => (p.1, p.2.duration + hook_info2.duration)
      | none => (p.1, p.2.duration)) hmem
    simpa only [hlook] using hm
  · intro samples p hp
    unfold TestStats.get_tests_runtimes at hp
    rw [List.mem_mergeSort] at hp
    obtain ⟨info, hmem⟩ := mem_tests_with_hooks_fst _ p hp
    have hkeys := foldl_add_stats_keys samples TestStats.empty
      (by simp [TestStats.empty]) (p.1, info) hmem
    simpa using hkeys
  · norm_num +decide [TestStats.ofSamples, TestStats._add_stats, TestStats.empty,
      _add_runtime_info, lookupRuntime, updateEntry, _average, normalize_test_file,
      is_resmoke_hook, split_test_hook_name, TestStats.get_tests_runtimes,
      TestStats.tests_with_hooks, get_short_name_from_test_file, splitOnChar]

/-- C5 witness: hook folding applied at a concrete `TestStats` state. -/
theorem hook_folding_witness :
    ("jstests/core/foo.js", (5 : ℚ) + 2) ∈ (TestStats.mk
        [("jstests/core/foo.js", ⟨5, 1⟩)] [("foo", ⟨2, 1⟩)]).get_tests_runtimes :=
  hook_folding.1 ⟨[("jstests/core/foo.js", ⟨5, 1⟩)], [("foo", ⟨2, 1⟩)]⟩
    ("jstests/core/foo.js") ⟨5, 1⟩ ⟨2, 1⟩ (by simp)
    (by simp +decide [lookupRuntime, get_short_name_from_test_file, splitOnChar])

/-- C6: `get_tests_runtimes` is sorted by combined duration in descending
order, the sort is stable (each equal-duration class keeps the order of
`tests_with_hooks`, i.e. of `_runtime_by_test`), and `_add_runtime_info`
appends a new key at the end while merges keep key positions — so the
pre-sort order is first-ingestion (encounter) order. -/
theorem output_sorted_descending :
    (∀ ts : TestStats,
        List.Pairwise (fun a b : String × ℚ => b.2 ≤ a.2) ts.get_tests_runtimes)
    ∧ (∀ (ts : TestStats) (d : ℚ),
        ts.get_tests_runtimes.filter (fun p => decide (p.2 = d))
          = ts.tests_with_hooks.filter (fun p => decide (p.2 = d)))
    ∧ (∀ (dict : RuntimeDict) (test_name : String) (duration : ℚ) (num_run : Nat),
        (_add_runtime_info dict test_name duration num_run).map Prod.fst
          = if (lookupRuntime dict test_name).isSome then dict.map Prod.fst
            else dict.map Prod.fst ++ [test_name]) := by
  refine ⟨get_tests_runtimes_sorted, ?_, ?_⟩
  · intro ts d
    unfold TestStats.get_tests_runtimes
    refine mergeSort_filter_stable _ ?_ ?_ _ ?_ _
    · intro a b c h1 h2
      exact decide_eq_true (le_trans (of_decide_eq_true h2) (of_decide_eq_true h1))
    · intro a b
      simpa using le_total b.2 a.2
    · intro a b ha hb
      have ha2 : a.2 = d := of_decide_eq_true ha
      have hb2 : b.2 = d := of_decide_eq_true hb
      exact decide_eq_true (by rw [ha2, hb2])
  · intro dict test_name duration num_run
    unfold _add_runtime_info
    rcases hlook : lookupRuntime dict test_name with _ | info
    · simp
    · simp [updateEntry_map_fst]

/-! ### Lemmas for the fallback partitioner -/

/-- Per-bin characterization of the fallback loop: bin `j` collects the tests
whose enumeration index is congruent to `j` mod the suite count, each with
runtime weight zero. -/
lemma calculate_fallback_go_spec (n : Nat) :
    ∀ (tests : List String) (idx : Nat) (suites : List Suite), suites.length = n →
      (calculate_fallback_go n tests idx suites).length = n
      ∧ ∀ j, j < n →
        ((calculate_fallback_go n tests idx suites).getD j Suite.empty).tests
          = (suites.getD j Suite.empty).tests ++ roundRobinSlice tests n idx j
        ∧ ((calculate_fallback_go n tests idx suites).getD j Suite.empty).total_runtime
          = (suites.getD j Suite.empty).total_runtime
  | [], idx, suites, hlen => by
      simp [calculate_fallback_go, roundRobinSlice, hlen]
  | tf :: rest, idx, suites, hlen => by
      have hmodlen : (listModify suites (idx % n) (fun s => s.add_test tf 0)).length = n := by
        rw [listModify_length]
        exact hlen
      obtain ⟨ihlen, ihspec⟩ := calculate_fallback_go_spec n rest (idx + 1) _ hmodlen
      constructor
      · simpa [calculate_fallback_go] using ihlen
      · intro j hj
        have hn0 : 0 < n := Nat.lt_of_le_of_lt (Nat.zero_le j) hj
        have hidxlt : idx % n < suites.length := by
          rw [hlen]
          exact Nat.mod_lt idx hn0
        obtain ⟨iht, ihr⟩ := ihspec j hj
        simp only [calculate_fallback_go]
        simp only [roundRobinSlice]
        by_cases hij : idx % n = j
        · subst hij
          rw [iht, ihr, listModify_getD_self Suite.empty suites (idx % n) _ hidxlt]
          simp
        · rw [iht, ihr, listModify_getD_ne Suite.empty suites (idx % n) j _ hij]
          simp [hij]

/-! ### Claim theorems for the fallback partitioner and error handling -/

/-- C7: the fallback partitioner assigns the test at position i to bin
i mod num_bins with duration weight zero; ten tests into 3 bins yields the
fixed arrangement of sizes 4, 3, 3. -/
theorem fallback_round_robin (tests : List String) (num_bins : Nat) (h : 1 ≤ num_bins) :
    (calculate_fallback_suites num_bins tests).length = num_bins
    ∧ (∀ j, j < num_bins →
        ((calculate_fallback_suites num_bins tests).getD j Suite.empty).tests
          = roundRobinSlice tests num_bins 0 j
        ∧ ((calculate_fallback_suites num_bins tests).getD j Suite.empty).total_runtime = 0)
    ∧ (calculate_fallback_suites 3
        ["t0", "t1", "t2", "t3", "t4", "t5", "t6", "t7", "t8", "t9"]).map Suite.tests
        = [["t0", "t3", "t6", "t9"], ["t1", "t4", "t7"], ["t2", "t5", "t8"]] := by
  have hrep : (List.replicate num_bins Suite.empty).length = num_bins := by simp
  obtain ⟨hlen, hspec⟩ := calculate_fallback_go_spec num_bins tests 0 _ hrep
  have hgd : ∀ j, j < num_bins →
      (List.replicate num_bins Suite.empty).getD j Suite.empty = Suite.empty := by
    intro j hj
    rw [List.getD_eq_getElem _ _ (by simpa using hj)]
    simp
  refine ⟨hlen, ?_, ?_⟩
  · intro j hj
    obtain ⟨ht, hr⟩ := hspec j hj
    unfold calculate_fallback_suites
    rw [ht, hr, hgd j hj]
    simp
  · norm_num [calculate_fallback_suites, calculate_fallback_go, listModify,
      Suite.add_test, Suite.empty, List.replicate]

/-- C7 witness: the fallback theorem applied at the concrete ten-test input. -/
theorem fallback_round_robin_witness :
    (calculate_fallback_suites 3
        ["t0", "t1", "t2", "t3", "t4", "t5", "t6", "t7", "t8", "t9"]).map Suite.tests
      = [["t0", "t3", "t6", "t9"], ["t1", "t4", "t7"], ["t2", "t5", "t8"]] :=
  (fallback_round_robin ["t0", "t1", "t2", "t3", "t4", "t5", "t6", "t7", "t8", "t9"] 3
    (by norm_num)).2.2

/-- C10: the fallback partitioner always returns exactly num_bins bins; with
fewer tests than bins the surplus bins are empty (no tests, total runtime 0)
yet still present — unlike the stats-based packer, which never emits an empty
bin. -/
theorem fallback_bin_count (tests : List String) (num_bins : Nat) (h : 1 ≤ num_bins) :
    (calculate_fallback_suites num_bins tests).length = num_bins
    ∧ (tests.length < num_bins →
        ∀ j, tests.length ≤ j → j < num_bins →
          (calculate_fallback_suites num_bins tests).getD j Suite.empty = Suite.empty)
    ∧ (∀ (tests_runtimes : List (String × ℚ)) (max_time_seconds : ℚ)
          (max_suites : Option Nat),
        ∀ b ∈ divide_tests_into_suites tests_runtimes max_time_seconds max_suites,
          0 < b.get_test_count) := by
  have hrep : (List.replicate num_bins Suite.empty).length = num_bins := by simp
  obtain ⟨hlen, hspec⟩ := calculate_fallback_go_spec num_bins tests 0 _ hrep
  refine ⟨hlen, ?_, ?_⟩
  · intro hlt j hjge hjlt
    obtain ⟨ht, hr⟩ := hspec j hjlt
    have hgd : (List.replicate num_bins Suite.empty).getD j Suite.empty = Suite.empty := by
      rw [List.getD_eq_getElem _ _ (by simpa using hjlt)]
      simp
    have hslice : roundRobinSlice tests num_bins 0 j = [] :=
      roundRobinSlice_nil_of_le num_bins tests 0 j (by omega) hjlt
    rw [Suite.eq_empty_iff]
    unfold calculate_fallback_suites
    rw [ht, hr, hgd, hslice]
    simp
  · intro tests_runtimes max_time_seconds max_suites b hb
    rw [divide_tests_into_suites_def] at hb
    have hphase : ∀ b ∈ closeBins
        (dtis_loop max_time_seconds max_suites tests_runtimes [] Suite.empty).1
        (dtis_loop max_time_seconds max_suites tests_runtimes [] Suite.empty).2.1,
        0 < b.get_test_count :=
      fun b hb =>
        (dtis_loop_binOk max_time_seconds max_suites tests_runtimes [] Suite.empty
          (by simp) (by simp) b hb).1
    split_ifs at hb with hcond
    · exact divide_remaining_go_pos _ _ 0 hphase b hb
    · exact hphase b hb

/-- C10 witness: the bin-count theorem applied at a concrete input with fewer
tests than bins. -/
theorem fallback_bin_count_witness :
    (calculate_fallback_suites 2 ["x"]).length = 2 :=
  (fallback_bin_count ["x"] 2 (by norm_num)).1

/-- C8: the orchestrator returns the fallback partition exactly on an HTTP 503
from the statistics fetch; any other failure propagates unchanged; a
successful fetch yields the stats-based partition. -/
theorem stats_fetch_error_handling (execution_time_secs : ℚ) (max_sub_suites : Option Nat)
    (fallback_num_sub_suites : Nat) (suite_tests : List String) (data : List Sample)
    (code : Nat) (hcode : code ≠ SERVICE_UNAVAILABLE) :
    calculate_suites (.error (.httpError SERVICE_UNAVAILABLE)) execution_time_secs
        max_sub_suites fallback_num_sub_suites suite_tests
      = .ok (calculate_fallback_suites fallback_num_sub_suites suite_tests)
    ∧ calculate_suites (.error (.httpError code)) execution_time_secs max_sub_suites
        fallback_num_sub_suites suite_tests = .error (.httpError code)
    ∧ calculate_suites (.error .otherError) execution_time_secs max_sub_suites
        fallback_num_sub_suites suite_tests = .error .otherError
    ∧ calculate_suites (.ok data) execution_time_secs max_sub_suites
        fallback_num_sub_suites suite_tests
      = .ok (calculate_suites_from_evg_stats data execution_time_secs max_sub_suites) := by
  refine ⟨by simp [calculate_suites], ?_, rfl, rfl⟩
  simp [calculate_suites, hcode]

/-- C8 witness: a non-503 HTTP failure propagates. -/
theorem stats_fetch_error_handling_witness :
    calculate_suites (.error (.httpError 500)) 60 none 2 ["a"]
      = .error (.httpError 500) :=
  (stats_fetch_error_handling 60 none 2 ["a"] [] 500
    (by norm_num [SERVICE_UNAVAILABLE])).2.1

end GenerateResmokeSuites
